import Mathlib

/-!
Verification of the vendor-name canonicalization engine of
`src/docs/analyze_vendors.py`.

Python strings are modelled as lists of Unicode code points (`List Nat`).
The character classes (`\s`, `\d`, `str.upper`, `str.lower`, `str.strip`) are
modelled on their ASCII behaviour; full-Unicode special casings are outside the
scope of this embedding.  Each `re.sub` call of `normalize_vendor_base` is
translated into an executable function with Python's matching semantics for the
concrete pattern at hand: scanning for the leftmost match, greedy repetition,
global (all non-overlapping occurrences) replacement, `^` anchoring at the start
of the string only, and a non-MULTILINE `$` matching at the end of the string or
just before a trailing newline.
-/

namespace VendorAnalysis

/-- A Python string: the list of its code points. -/
abbrev Str := List Nat

/-- Code points of a Lean string literal, used to write concrete inputs. -/
def S (s : String) : Str := s.toList.map Char.toNat

/-- Whitespace as matched by `\s` and stripped by `str.strip` (ASCII part):
space, tab, newline, carriage return, vertical tab, form feed. -/
def isSp (c : Nat) : Bool := decide (c = 32 ∨ c = 9 ∨ c = 10 ∨ c = 13 ∨ c = 11 ∨ c = 12)

/-- Decimal digits `\d` (ASCII part). -/
def isDig (c : Nat) : Bool := decide (48 ≤ c ∧ c ≤ 57)

/-- The character class `[A-Z]`. -/
def isUpperAlpha (c : Nat) : Bool := decide (65 ≤ c ∧ c ≤ 90)

/-- The character class `[A-Z0-9]`. -/
def isAlnum (c : Nat) : Bool := isUpperAlpha c || isDig c

/-- `str.upper()` applied to one code point (ASCII part). -/
def upChar (c : Nat) : Nat := if 97 ≤ c ∧ c ≤ 122 then c - 32 else c

/-- `str.lower()` applied to one code point (ASCII part). -/
def lowChar (c : Nat) : Nat := if 65 ≤ c ∧ c ≤ 90 then c + 32 else c

/-- `str.strip()`: remove leading and trailing whitespace. -/
def pyStrip (s : Str) : Str := ((s.dropWhile isSp).reverse.dropWhile isSp).reverse

/-- One `re.sub` of an end-anchored pattern with empty replacement, where `$`
means the true end of the string: delete the suffix starting at the leftmost
position whose remainder is accepted by `chk` (the whole string is tried first,
then the positions after each successive character). -/
def subEndCore (chk : Str → Bool) (s : Str) : Str :=
  if chk s then []
  else
    match s with
    | [] => []
    | c :: rest => c :: subEndCore chk rest

/-- `re.sub` of an end-anchored pattern with empty replacement.  A non-MULTILINE
`$` also matches just before a trailing newline; for each of the five
end-anchored patterns of the source the matched text can never end with a
newline, so in that case the substitution acts on the part before the final
newline. -/
def subEnd (chk : Str → Bool) (s : Str) : Str :=
  if s.getLast? = some 10 then subEndCore chk s.dropLast ++ [10] else subEndCore chk s

/-- Acceptor for the suffix form `\s*#?\d{4,8}` of
`re.sub(r'\s*#?\d{4,8}$', '', v)` (trailing store/reference codes). -/
def chkStore (l : Str) : Bool :=
  let r := l.dropWhile isSp
  let r := match r with
    | 35 :: t => t
    | r => r
  r.all isDig && decide (4 ≤ r.length ∧ r.length ≤ 8)

/-- Acceptor for the suffix form `\s+[A-Z]\d{5}` of
`re.sub(r'\s+[A-Z]\d{5}$', '', v)` (trailing location codes). -/
def chkLoc (l : Str) : Bool :=
  !(l.takeWhile isSp).isEmpty &&
    match l.dropWhile isSp with
    | c :: t => isUpperAlpha c && t.all isDig && decide (t.length = 5)
    | [] => false

/-- Acceptor for a suffix form `\s+LIT` with a literal `lit`
(`re.sub(r'\s+POS$', '', v)` and `re.sub(r'\s+OUTSIDE$', '', v)`). -/
def chkWsLit (lit : Str) (l : Str) : Bool :=
  !(l.takeWhile isSp).isEmpty && decide (l.dropWhile isSp = lit)

/-- Acceptor for a suffix form `\s+LIT.*` with a literal `lit`
(`re.sub(r'\s+OVERLAND PARK.*$', '', v)` and the LEAWOOD / PRAIRIE FIRE rules);
`.` does not match a newline. -/
def chkWsLitDotStar (lit : Str) (l : Str) : Bool :=
  !(l.takeWhile isSp).isEmpty && lit.isPrefixOf (l.dropWhile isSp) &&
    ((l.dropWhile isSp).drop lit.length).all (fun c => decide (c ≠ 10))

/-- `re.sub('^PRE', '', v)` for a literal prefix `PRE`: `^` only matches at the
start of the string, so at most the one leading occurrence is removed. -/
def subPrefix (pre : Str) (s : Str) : Str :=
  if pre.isPrefixOf s then s.drop pre.length else s

/-- One match attempt of `\s+#\d+` at the head of `l`: maximal nonempty
whitespace run, then `#`, then maximal nonempty digit run; returns the
remainder after the match. -/
def tryHashRef (l : Str) : Option Str :=
  if (l.takeWhile isSp).isEmpty then none else
  match l.dropWhile isSp with
  | 35 :: t => if (t.takeWhile isDig).isEmpty then none else some (t.dropWhile isDig)
  | _ => none

/-- `re.sub(r'\s+#\d+', '', v)`: replace every non-overlapping occurrence,
scanning left to right.  The fuel argument bounds the recursion and is always
instantiated with the length of the string. -/
def subHashGo : Nat → Str → Str
  | 0, l => l
  | _ + 1, [] => []
  | fuel + 1, c :: rest =>
    match tryHashRef (c :: rest) with
    | some rem => subHashGo fuel rem
    | none => c :: subHashGo fuel rest

/-- `re.sub(r'\s+#\d+', '', v)`. -/
def subHash (s : Str) : Str := subHashGo s.length s

/-- The part of an `AMAZON MKTPL?\*[A-Z0-9]+` match after the optional `L`:
a `*` then a maximal nonempty run of `[A-Z0-9]`; returns the remainder. -/
def tryMktpTail (r : Str) : Option Str :=
  match r with
  | 42 :: t => if (t.takeWhile isAlnum).isEmpty then none else some (t.dropWhile isAlnum)
  | _ => none

/-- One match attempt of `AMAZON MKTPL?\*[A-Z0-9]+` at the head of `l`:
the literal `AMAZON MKTP`, an optional `L`, a `*`, then a maximal nonempty
run of `[A-Z0-9]`; returns the remainder after the match. -/
def tryMktp (l : Str) : Option Str :=
  if (S "AMAZON MKTP").isPrefixOf l then
    match l.drop 11 with
    | 76 :: t => tryMktpTail t
    | t => tryMktpTail t
  else none

/-- `re.sub(r'AMAZON MKTPL?\*[A-Z0-9]+', 'AMAZON', v)`: replace every
non-overlapping occurrence by the literal `AMAZON`, scanning left to right;
the replacement text is not rescanned. -/
def subMktpGo : Nat → Str → Str
  | 0, l => l
  | _ + 1, [] => []
  | fuel + 1, c :: rest =>
    match tryMktp (c :: rest) with
    | some rem => S "AMAZON" ++ subMktpGo fuel rem
    | none => c :: subMktpGo fuel rest

/-- `re.sub(r'AMAZON MKTPL?\*[A-Z0-9]+', 'AMAZON', v)`. -/
def subMktp (s : Str) : Str := subMktpGo s.length s

/-- `v = vendor.upper()`. -/
def afterUpper (s : Str) : Str := s.map upChar

/-- State of `v` after `re.sub(r'\s*#?\d{4,8}$', '', v)`. -/
def afterStore (s : Str) : Str := subEnd chkStore (afterUpper s)

/-- State of `v` after `re.sub(r'\s+#\d+', '', v)`. -/
def afterHashRef (s : Str) : Str := subHash (afterStore s)

/-- State of `v` after `re.sub(r'\s+[A-Z]\d{5}$', '', v)`. -/
def afterLoc (s : Str) : Str := subEnd chkLoc (afterHashRef s)

/-- State of `v` after `re.sub(r'^SQ \*', '', v)`. -/
def afterSQ (s : Str) : Str := subPrefix (S "SQ *") (afterLoc s)

/-- State of `v` after `re.sub(r'AMAZON MKTPL?\*[A-Z0-9]+', 'AMAZON', v)`. -/
def afterMktp (s : Str) : Str := subMktp (afterSQ s)

/-- State of `v` after `re.sub(r'^TST\*', '', v)`. -/
def afterTST (s : Str) : Str := subPrefix (S "TST*") (afterMktp s)

/-- State of `v` after `re.sub(r'^SP ', '', v)`. -/
def afterSP (s : Str) : Str := subPrefix (S "SP ") (afterTST s)

/-- State of `v` after `re.sub(r'^FSP\*', '', v)`. -/
def afterFSP (s : Str) : Str := subPrefix (S "FSP*") (afterSP s)

/-- State of `v` after `re.sub(r'^PAR\*', '', v)`. -/
def afterPAR (s : Str) : Str := subPrefix (S "PAR*") (afterFSP s)

/-- State of `v` after `re.sub(r'\s+OVERLAND PARK.*$', '', v)`. -/
def afterOverland (s : Str) : Str := subEnd (chkWsLitDotStar (S "OVERLAND PARK")) (afterPAR s)

/-- State of `v` after `re.sub(r'\s+LEAWOOD.*$', '', v)`. -/
def afterLeawood (s : Str) : Str := subEnd (chkWsLitDotStar (S "LEAWOOD")) (afterOverland s)

/-- State of `v` after `re.sub(r'\s+PRAIRIE FIRE.*$', '', v)`. -/
def afterPrairie (s : Str) : Str := subEnd (chkWsLitDotStar (S "PRAIRIE FIRE")) (afterLeawood s)

/-- State of `v` after `re.sub(r'\s+POS$', '', v)`. -/
def afterPOS (s : Str) : Str := subEnd (chkWsLit (S "POS")) (afterPrairie s)

/-- State of `v` after `re.sub(r'\s+OUTSIDE$', '', v)`. -/
def afterOutside (s : Str) : Str := subEnd (chkWsLit (S "OUTSIDE")) (afterPOS s)

/-- `normalize_vendor_base`: the full rule pipeline followed by `v.strip()`. -/
def normalize_vendor_base (s : Str) : Str := pyStrip (afterOutside s)

/-- The bucket of `extract_vendor_patterns` for one key: `patterns` is a
`defaultdict(list)` filled by appending each vendor of the input list, in
order, to the bucket of its normalized base, so the bucket of `key` is the
sublist of vendors whose base is `key`. -/
def extract_vendor_patterns (ds : List Str) (key : Str) : List Str :=
  ds.filter (fun d => decide (normalize_vendor_base d = key))

/-- Keys of the `patterns` dict in insertion order: first occurrences of the
normalized bases, in input order (fueled recursion, fuel = list length). -/
def dedupFirstGo : Nat → List Str → List Str
  | 0, _ => []
  | _ + 1, [] => []
  | fuel + 1, x :: xs => x :: dedupFirstGo fuel (xs.filter (fun y => decide (y ≠ x)))

/-- Keys of the `patterns` dict in insertion order. -/
def dedupFirst (l : List Str) : List Str := dedupFirstGo l.length l

/-- Python string comparison `a < b or a == b`: lexicographic on code points,
a proper prefix is smaller. -/
def lexLe : Str → Str → Bool
  | [], _ => true
  | _ :: _, [] => false
  | a :: as, b :: bs => if a < b then true else if b < a then false else lexLe as bs

/-- Stable insertion into a lexicographically ascending list: the new element
goes after every element that is `≤` it. -/
def insSorted (x : Str) : List Str → List Str
  | [] => [x]
  | y :: ys => if lexLe y x then y :: insSorted x ys else x :: y :: ys

/-- `sorted(variants)`: stable ascending sort by Python string comparison. -/
def pySorted (l : List Str) : List Str := l.foldl (fun acc x => insSorted x acc) []

/-- Stable insertion into a list descending by variant count: the new element
goes after every element whose list is at least as long. -/
def insByLen (x : Str × List Str) : List (Str × List Str) → List (Str × List Str)
  | [] => [x]
  | y :: ys => if x.2.length ≤ y.2.length then y :: insByLen x ys else x :: y :: ys

/-- `sorted(groups, key=lambda x: len(x[1]), reverse=True)`: Python's sort is
stable, so this is a stable descending sort by variant count. -/
def sortByLenDesc (l : List (Str × List Str)) : List (Str × List Str) :=
  l.foldl (fun acc x => insByLen x acc) []

/-- `find_groups`: keep the buckets with more than one variant (iterating the
dict in key-insertion order), sort each bucket's variants, then sort the
groups by descending variant count. -/
def find_groups (ds : List Str) : List (Str × List Str) :=
  sortByLenDesc ((dedupFirst (ds.map normalize_vendor_base)).filterMap (fun k =>
    let b := extract_vendor_patterns ds k
    if 1 < b.length then some (k, pySorted b) else none))

/-- A transaction row's `Description` field: `none` when the field is missing,
`some d` otherwise (`d` may be empty). -/
def descOrEmpty (t : Option Str) : Str := t.getD []

/-- Python truthiness filter `if t.get('Description')`: present and nonempty. -/
def hasDesc (t : Option Str) : Bool :=
  match t with
  | some d => !d.isEmpty
  | none => false

/-- The frequency table of `analyze_vendor_data`, read at one key:
`merchant_counts[base] += 1` is executed for `normalize_vendor_base(t.get('Description', ''))`
of every transaction, with no filtering. -/
def merchant_counts (ts : List (Option Str)) (key : Str) : Nat :=
  (ts.map (fun t => normalize_vendor_base (descOrEmpty t))).count key

/-- How many of the five payment-aggregator prefix rules rewrite the string
during one call of `normalize_vendor_base` on `s`: a rule fires when its
`re.sub` changes the current string at its point in the pipeline. -/
def prefixFireCount (s : Str) : Nat :=
  (if afterSQ s ≠ afterLoc s then 1 else 0) +
  (if afterTST s ≠ afterMktp s then 1 else 0) +
  (if afterSP s ≠ afterTST s then 1 else 0) +
  (if afterFSP s ≠ afterSP s then 1 else 0) +
  (if afterPAR s ≠ afterFSP s then 1 else 0)

/-! ### Length-after-strip machinery

`rstripLen s` is the length of `s` with its trailing whitespace removed,
`stripLen s` the length of `s.strip()`.  The monotonicity lemmas below say that
deleting an infix of a string never increases the stripped length; they drive
the proofs that every rewrite rule of the pipeline is length-nonincreasing
modulo stripping. -/

/-- Length of `s` with trailing whitespace removed. -/
def rstripLen (s : Str) : Nat := (s.reverse.dropWhile isSp).length

/-- Length of `s.strip()`. -/
def stripLen (s : Str) : Nat := (pyStrip s).length

theorem stripLen_eq_rstripLen (s : Str) : stripLen s = rstripLen (s.dropWhile isSp) := by
  simp [stripLen, rstripLen, pyStrip]

theorem rstripLen_append_of_all (x y : Str) (h : ∀ c ∈ y, isSp c = true) :
    rstripLen (x ++ y) = rstripLen x := by
  have hnil : y.reverse.dropWhile isSp = [] :=
    List.dropWhile_eq_nil_iff.mpr (fun c hc => h c (List.mem_reverse.mp hc))
  simp [rstripLen, List.reverse_append, List.dropWhile_append, hnil]

theorem rstripLen_append_of_nonsp (x y : Str) (h : ∃ c ∈ y, isSp c = false) :
    rstripLen (x ++ y) = x.length + rstripLen y := by
  have hne : y.reverse.dropWhile isSp ≠ [] := by
    intro hnil
    obtain ⟨c, hc, hcs⟩ := h
    have := List.dropWhile_eq_nil_iff.mp hnil c (List.mem_reverse.mpr hc)
    simp [this] at hcs
  simp only [rstripLen, List.reverse_append, List.dropWhile_append]
  simp [List.isEmpty_iff, hne, Nat.add_comm]

theorem rstripLen_le (s : Str) : rstripLen s ≤ s.length := by
  have h : s.reverse.dropWhile isSp <:+ s.reverse := List.dropWhile_suffix isSp
  simpa [rstripLen] using h.length_le

theorem rstripLen_eq_zero_iff (y : Str) : rstripLen y = 0 ↔ ∀ c ∈ y, isSp c = true := by
  constructor
  · intro h c hc
    have hnil : y.reverse.dropWhile isSp = [] := List.length_eq_zero.mp h
    exact List.dropWhile_eq_nil_iff.mp hnil c (List.mem_reverse.mpr hc)
  · intro h
    have := rstripLen_append_of_all [] y h
    simpa [rstripLen] using this

theorem rstripLen_le_append_left (a b : Str) : rstripLen a ≤ rstripLen (a ++ b) := by
  by_cases hb : ∀ c ∈ b, isSp c = true
  · rw [rstripLen_append_of_all a b hb]
  · have hb' : ∃ c ∈ b, isSp c = false := by
      push_neg at hb
      obtain ⟨c, hc, hcs⟩ := hb
      exact ⟨c, hc, by simpa using hcs⟩
    rw [rstripLen_append_of_nonsp a b hb']
    have := rstripLen_le a
    omega

theorem rstripLen_suffix_le (b c : Str) : rstripLen c ≤ rstripLen (b ++ c) := by
  by_cases hc : ∀ x ∈ c, isSp x = true
  · have h0 : rstripLen c = 0 := (rstripLen_eq_zero_iff c).mpr hc
    omega
  · have hc' : ∃ x ∈ c, isSp x = false := by
      push_neg at hc
      obtain ⟨x, hx, hxs⟩ := hc
      exact ⟨x, hx, by simpa using hxs⟩
    rw [rstripLen_append_of_nonsp b c hc']
    omega

theorem rstripLen_middle (a b c : Str) : rstripLen (a ++ c) ≤ rstripLen (a ++ b ++ c) := by
  rw [List.append_assoc]
  by_cases hc : ∀ x ∈ c, isSp x = true
  · rw [rstripLen_append_of_all a c hc, ← List.append_assoc,
      rstripLen_append_of_all (a ++ b) c hc]
    exact rstripLen_le_append_left a b
  · have hc' : ∃ x ∈ c, isSp x = false := by
      push_neg at hc
      obtain ⟨x, hx, hxs⟩ := hc
      exact ⟨x, hx, by simpa using hxs⟩
    have hbc : ∃ x ∈ b ++ c, isSp x = false := by
      obtain ⟨x, hx, hxs⟩ := hc'
      exact ⟨x, List.mem_append_right b hx, hxs⟩
    rw [rstripLen_append_of_nonsp a c hc', rstripLen_append_of_nonsp a (b ++ c) hbc]
    have := rstripLen_suffix_le b c
    omega

theorem rstripLen_dropWhile_le (l : Str) : rstripLen (l.dropWhile isSp) ≤ rstripLen l := by
  have h := rstripLen_suffix_le (l.takeWhile isSp) (l.dropWhile isSp)
  rwa [List.takeWhile_append_dropWhile] at h

theorem stripLen_suffix_le (b c : Str) : stripLen c ≤ stripLen (b ++ c) := by
  rw [stripLen_eq_rstripLen, stripLen_eq_rstripLen, List.dropWhile_append]
  cases hb : (b.dropWhile isSp).isEmpty
  · simp only [hb, Bool.false_eq_true, if_false]
    calc rstripLen (c.dropWhile isSp) ≤ rstripLen c := rstripLen_dropWhile_le c
      _ ≤ rstripLen (b.dropWhile isSp ++ c) := rstripLen_suffix_le _ c
  · simp [hb]

theorem stripLen_middle (a b c : Str) : stripLen (a ++ c) ≤ stripLen (a ++ b ++ c) := by
  rw [List.append_assoc, stripLen_eq_rstripLen, stripLen_eq_rstripLen,
    List.dropWhile_append, List.dropWhile_append]
  cases ha : (a.dropWhile isSp).isEmpty
  · simp only [ha, Bool.false_eq_true, if_false]
    have h := rstripLen_middle (a.dropWhile isSp) b c
    rwa [List.append_assoc] at h
  · simp only [ha, if_true]
    have h := stripLen_suffix_le b c
    rwa [stripLen_eq_rstripLen, stripLen_eq_rstripLen] at h

theorem stripLen_take_le (s : Str) (n : Nat) : stripLen (s.take n) ≤ stripLen s := by
  have h := stripLen_middle (s.take n) (s.drop n) []
  simpa [List.take_append_drop] using h

theorem stripLen_drop_le (s : Str) (n : Nat) : stripLen (s.drop n) ≤ stripLen s := by
  have h := stripLen_suffix_le (s.take n) (s.drop n)
  rwa [List.take_append_drop] at h

theorem rstripLen_drop_le (s : Str) (n : Nat) : rstripLen (s.drop n) ≤ rstripLen s := by
  have h := rstripLen_suffix_le (s.take n) (s.drop n)
  rwa [List.take_append_drop] at h

theorem rstripLen_singleton_nonsp {c : Nat} (h : isSp c = false) : rstripLen [c] = 1 := by
  simp [rstripLen, List.dropWhile, h]

theorem rstripLen_cons_of_all {c : Nat} {y : Str} (h : ∀ x ∈ y, isSp x = true) :
    rstripLen (c :: y) = rstripLen [c] := by
  simpa using rstripLen_append_of_all [c] y h

theorem rstripLen_cons_of_nonsp {c : Nat} {y : Str} (h : ∃ x ∈ y, isSp x = false) :
    rstripLen (c :: y) = 1 + rstripLen y := by
  simpa using rstripLen_append_of_nonsp [c] y h

theorem rstripLen_cons_mono {y z : Str} (c : Nat) (h : rstripLen y ≤ rstripLen z) :
    rstripLen (c :: y) ≤ rstripLen (c :: z) := by
  by_cases hy : ∀ x ∈ y, isSp x = true
  · rw [rstripLen_cons_of_all hy]
    simpa using rstripLen_le_append_left [c] z
  · have hy' : ∃ x ∈ y, isSp x = false := by
      push_neg at hy
      obtain ⟨x, hx, hxs⟩ := hy
      exact ⟨x, hx, by simpa using hxs⟩
    have hypos : 0 < rstripLen y := by
      rcases Nat.eq_zero_or_pos (rstripLen y) with h0 | h0
      · obtain ⟨x, hx, hxs⟩ := hy'
        have := (rstripLen_eq_zero_iff y).mp h0 x hx
        simp [this] at hxs
      · exact h0
    have hz' : ∃ x ∈ z, isSp x = false := by
      by_contra hall
      push_neg at hall
      have : rstripLen z = 0 := (rstripLen_eq_zero_iff z).mpr (by
        intro x hx
        simpa using hall x hx)
      omega
    rw [rstripLen_cons_of_nonsp hy', rstripLen_cons_of_nonsp hz']
    omega

theorem stripLen_cons_sp {c : Nat} (y : Str) (h : isSp c = true) :
    stripLen (c :: y) = stripLen y := by
  simp [stripLen_eq_rstripLen, List.dropWhile_cons, h]

theorem stripLen_cons_nonsp {c : Nat} (y : Str) (h : isSp c = false) :
    stripLen (c :: y) = 1 + rstripLen y := by
  rw [stripLen_eq_rstripLen]
  rw [List.dropWhile_cons]
  simp only [h, Bool.false_eq_true, if_false]
  by_cases hy : ∀ x ∈ y, isSp x = true
  · rw [rstripLen_cons_of_all hy, rstripLen_singleton_nonsp h,
      (rstripLen_eq_zero_iff y).mpr hy]
  · have hy' : ∃ x ∈ y, isSp x = false := by
      push_neg at hy
      obtain ⟨x, hx, hxs⟩ := hy
      exact ⟨x, hx, by simpa using hxs⟩
    rw [rstripLen_cons_of_nonsp hy']

theorem stripLen_cons_mono {y z : Str} (c : Nat) (h1 : stripLen y ≤ stripLen z)
    (h2 : rstripLen y ≤ rstripLen z) : stripLen (c :: y) ≤ stripLen (c :: z) := by
  cases hsp : isSp c
  · rw [stripLen_cons_nonsp y hsp, stripLen_cons_nonsp z hsp]
    omega
  · rw [stripLen_cons_sp y hsp, stripLen_cons_sp z hsp]
    exact h1

/-! ### Each rewrite rule is length-nonincreasing modulo stripping -/

theorem subEndCore_rstripLen_le (chk : Str → Bool) (s t : Str) :
    rstripLen (subEndCore chk s ++ t) ≤ rstripLen (s ++ t) := by
  induction s with
  | nil =>
    rw [subEndCore]
    split
    · simp
    · simp
  | cons c rest ih =>
    rw [subEndCore]
    split
    · simpa using rstripLen_suffix_le (c :: rest) t
    · simpa using rstripLen_cons_mono c ih

theorem subEndCore_stripLen_le (chk : Str → Bool) (s t : Str) :
    stripLen (subEndCore chk s ++ t) ≤ stripLen (s ++ t) := by
  induction s with
  | nil =>
    rw [subEndCore]
    split
    · simp
    · simp
  | cons c rest ih =>
    rw [subEndCore]
    split
    · simpa using stripLen_suffix_le (c :: rest) t
    · simpa using stripLen_cons_mono c ih (subEndCore_rstripLen_le chk rest t)

theorem subEnd_stripLen_le (chk : Str → Bool) (s : Str) :
    stripLen (subEnd chk s) ≤ stripLen s := by
  rw [subEnd]
  split
  · rename_i hlast
    have hs : s.dropLast ++ [10] = s := by
      rcases s.eq_nil_or_concat with rfl | ⟨a, b, rfl⟩
      · simp at hlast
      · have hb : b = 10 := by simpa using hlast
        simp [hb]
    calc stripLen (subEndCore chk s.dropLast ++ [10])
        ≤ stripLen (s.dropLast ++ [10]) := subEndCore_stripLen_le chk s.dropLast [10]
      _ = stripLen s := by rw [hs]
  · simpa using subEndCore_stripLen_le chk s []

theorem subPrefix_stripLen_le (pre s : Str) : stripLen (subPrefix pre s) ≤ stripLen s := by
  rw [subPrefix]
  split
  · exact stripLen_drop_le s pre.length
  · exact le_refl _

theorem tryHashRef_suffix {l rem : Str} (h : tryHashRef l = some rem) : rem <:+ l := by
  unfold tryHashRef at h
  split at h
  · exact absurd h (by simp)
  · split at h
    · rename_i t heq
      split at h
      · exact absurd h (by simp)
      · have hrem : t.dropWhile isDig = rem := by simpa using h
        have s1 : t.dropWhile isDig <:+ t := List.dropWhile_suffix _
        have s2 : t <:+ 35 :: t := List.suffix_cons 35 t
        have s3 : (35 : Nat) :: t <:+ l := heq ▸ List.dropWhile_suffix isSp
        exact hrem ▸ (s1.trans (s2.trans s3))
    · exact absurd h (by simp)

theorem tryMktpTail_decomp {r rem : Str} (h : tryMktpTail r = some rem) :
    ∃ cs, r = 42 :: (cs ++ rem) := by
  unfold tryMktpTail at h
  split at h
  · rename_i t
    split at h
    · exact absurd h (by simp)
    · have hrem : t.dropWhile isAlnum = rem := by simpa using h
      exact ⟨t.takeWhile isAlnum, by rw [← hrem, List.takeWhile_append_dropWhile]⟩
  · exact absurd h (by simp)

theorem tryMktp_decomp {l rem : Str} (h : tryMktp l = some rem) :
    ∃ mid, l = S "AMAZON" ++ mid ++ rem ∧ (∃ x ∈ mid, isSp x = false) := by
  unfold tryMktp at h
  split at h
  · rename_i hpre
    obtain ⟨t, ht⟩ := List.isPrefixOf_iff_prefix.mp hpre
    have hlen : (S "AMAZON MKTP").length = 11 := by decide
    have hdrop : l.drop 11 = t := by
      rw [← ht, ← hlen, List.drop_left]
    rw [hdrop] at h
    have hsplit : S "AMAZON MKTP" = S "AMAZON" ++ S " MKTP" := by decide
    split at h
    · rename_i t1
      obtain ⟨cs, hcs⟩ := tryMktpTail_decomp h
      refine ⟨S " MKTP" ++ 76 :: 42 :: cs, ?_, ⟨42, by simp, by decide⟩⟩
      rw [← ht, hsplit, hcs]
      simp [List.append_assoc]
    · obtain ⟨cs, hcs⟩ := tryMktpTail_decomp h
      refine ⟨S " MKTP" ++ 42 :: cs, ?_, ⟨42, by simp, by decide⟩⟩
      rw [← ht, hsplit, hcs]
      simp [List.append_assoc]
  · exact absurd h (by simp)

theorem rstripLen_amazon_append (y : Str) : rstripLen (S "AMAZON" ++ y) = 6 + rstripLen y := by
  by_cases hy : ∀ x ∈ y, isSp x = true
  · rw [rstripLen_append_of_all _ y hy, (rstripLen_eq_zero_iff y).mpr hy]
    decide
  · have hy' : ∃ x ∈ y, isSp x = false := by
      push_neg at hy
      obtain ⟨x, hx, hxs⟩ := hy
      exact ⟨x, hx, by simpa using hxs⟩
    rw [rstripLen_append_of_nonsp _ y hy']
    rfl

theorem stripLen_amazon_append (y : Str) : stripLen (S "AMAZON" ++ y) = 6 + rstripLen y := by
  rw [stripLen_eq_rstripLen, List.dropWhile_append]
  have h1 : (S "AMAZON").dropWhile isSp = S "AMAZON" := by decide
  rw [h1]
  have h2 : (S "AMAZON").isEmpty = false := by decide
  rw [h2]
  simp only [Bool.false_eq_true, if_false]
  exact rstripLen_amazon_append y

theorem subHashGo_stripLen_le (fuel : Nat) : ∀ l : Str,
    rstripLen (subHashGo fuel l) ≤ rstripLen l ∧ stripLen (subHashGo fuel l) ≤ stripLen l := by
  induction fuel with
  | zero => intro l; simp [subHashGo]
  | succ fuel ih =>
    intro l
    match l with
    | [] => simp [subHashGo]
    | c :: rest =>
      rw [subHashGo]
      cases htry : tryHashRef (c :: rest) with
      | some rem =>
        simp only
        obtain ⟨b, hb⟩ := tryHashRef_suffix htry
        constructor
        · calc rstripLen (subHashGo fuel rem) ≤ rstripLen rem := (ih rem).1
            _ ≤ rstripLen (b ++ rem) := rstripLen_suffix_le b rem
            _ = rstripLen (c :: rest) := by rw [hb]
        · calc stripLen (subHashGo fuel rem) ≤ stripLen rem := (ih rem).2
            _ ≤ stripLen (b ++ rem) := stripLen_suffix_le b rem
            _ = stripLen (c :: rest) := by rw [hb]
      | none =>
        simp only
        exact ⟨rstripLen_cons_mono c (ih rest).1,
          stripLen_cons_mono c (ih rest).2 (ih rest).1⟩

theorem subMktpGo_stripLen_le (fuel : Nat) : ∀ l : Str,
    rstripLen (subMktpGo fuel l) ≤ rstripLen l ∧ stripLen (subMktpGo fuel l) ≤ stripLen l := by
  induction fuel with
  | zero => intro l; simp [subMktpGo]
  | succ fuel ih =>
    intro l
    match l with
    | [] => simp [subMktpGo]
    | c :: rest =>
      rw [subMktpGo]
      cases htry : tryMktp (c :: rest) with
      | some rem =>
        simp only
        obtain ⟨mid, hdec, hmid⟩ := tryMktp_decomp htry
        have hnonsp : ∃ x ∈ mid ++ rem, isSp x = false := by
          obtain ⟨x, hx, hxs⟩ := hmid
          exact ⟨x, List.mem_append_left rem hx, hxs⟩
        have hr : rstripLen (c :: rest) = 6 + rstripLen (mid ++ rem) := by
          rw [hdec, List.append_assoc, rstripLen_amazon_append]
        have hf : stripLen (c :: rest) = 6 + rstripLen (mid ++ rem) := by
          rw [hdec, List.append_assoc, stripLen_amazon_append]
        have hsuf : rstripLen rem ≤ rstripLen (mid ++ rem) := rstripLen_suffix_le mid rem
        constructor
        · rw [rstripLen_amazon_append, hr]
          have := (ih rem).1
          omega
        · rw [stripLen_amazon_append, hf]
          have := (ih rem).1
          omega
      | none =>
        simp only
        exact ⟨rstripLen_cons_mono c (ih rest).1,
          stripLen_cons_mono c (ih rest).2 (ih rest).1⟩

theorem subHash_stripLen_le (s : Str) : stripLen (subHash s) ≤ stripLen s :=
  (subHashGo_stripLen_le s.length s).2

theorem subMktp_stripLen_le (s : Str) : stripLen (subMktp s) ≤ stripLen s :=
  (subMktpGo_stripLen_le s.length s).2

/-- The full rule pipeline is length-nonincreasing modulo stripping. -/
theorem pipeline_stripLen_le (s : Str) : stripLen (afterOutside s) ≤ stripLen (afterUpper s) := by
  calc stripLen (afterOutside s) ≤ stripLen (afterPOS s) := subEnd_stripLen_le _ _
    _ ≤ stripLen (afterPrairie s) := subEnd_stripLen_le _ _
    _ ≤ stripLen (afterLeawood s) := subEnd_stripLen_le _ _
    _ ≤ stripLen (afterOverland s) := subEnd_stripLen_le _ _
    _ ≤ stripLen (afterPAR s) := subEnd_stripLen_le _ _
    _ ≤ stripLen (afterFSP s) := subPrefix_stripLen_le _ _
    _ ≤ stripLen (afterSP s) := subPrefix_stripLen_le _ _
    _ ≤ stripLen (afterTST s) := subPrefix_stripLen_le _ _
    _ ≤ stripLen (afterMktp s) := subPrefix_stripLen_le _ _
    _ ≤ stripLen (afterSQ s) := subMktp_stripLen_le _
    _ ≤ stripLen (afterLoc s) := subPrefix_stripLen_le _ _
    _ ≤ stripLen (afterHashRef s) := subEnd_stripLen_le _ _
    _ ≤ stripLen (afterStore s) := subHash_stripLen_le _
    _ ≤ stripLen (afterUpper s) := subEnd_stripLen_le _ _

/-! ### Membership in the image of each rule -/

theorem mem_of_getLast?_eq {l : Str} {a : Nat} (h : l.getLast? = some a) : a ∈ l := by
  cases l with
  | nil => simp at h
  | cons x xs =>
    rw [List.getLast?_eq_getLast (x :: xs) (by simp)] at h
    exact (Option.some_inj.mp h) ▸ List.getLast_mem _

theorem mem_subEndCore {chk : Str → Bool} {s : Str} {c : Nat}
    (hc : c ∈ subEndCore chk s) : c ∈ s := by
  induction s with
  | nil => rw [subEndCore] at hc; split at hc <;> simp at hc
  | cons a rest ih =>
    rw [subEndCore] at hc
    split at hc
    · simp at hc
    · rcases List.mem_cons.mp hc with h | h
      · exact h ▸ List.mem_cons_self a rest
      · exact List.mem_cons_of_mem a (ih h)

theorem mem_subEnd {chk : Str → Bool} {s : Str} {c : Nat}
    (hc : c ∈ subEnd chk s) : c ∈ s := by
  rw [subEnd] at hc
  split at hc
  · rename_i hlast
    rcases List.mem_append.mp hc with h | h
    · exact List.dropLast_subset s (mem_subEndCore h)
    · have : c = 10 := by simpa using h
      exact this ▸ mem_of_getLast?_eq hlast
  · exact mem_subEndCore hc

theorem mem_subPrefix {pre s : Str} {c : Nat} (hc : c ∈ subPrefix pre s) : c ∈ s := by
  rw [subPrefix] at hc
  split at hc
  · exact List.drop_subset _ s hc
  · exact hc

theorem mem_subHashGo {fuel : Nat} : ∀ {l : Str} {c : Nat}, c ∈ subHashGo fuel l → c ∈ l := by
  induction fuel with
  | zero => intro l c hc; simpa [subHashGo] using hc
  | succ fuel ih =>
    intro l c hc
    match l with
    | [] => simp [subHashGo] at hc
    | a :: rest =>
      rw [subHashGo] at hc
      cases htry : tryHashRef (a :: rest) with
      | some rem =>
        rw [htry] at hc
        exact (tryHashRef_suffix htry).subset (ih hc)
      | none =>
        rw [htry] at hc
        rcases List.mem_cons.mp hc with h | h
        · exact h ▸ List.mem_cons_self a rest
        · exact List.mem_cons_of_mem a (ih h)

theorem mem_subMktpGo {fuel : Nat} : ∀ {l : Str} {c : Nat},
    c ∈ subMktpGo fuel l → c ∈ l ∨ c ∈ S "AMAZON" := by
  induction fuel with
  | zero => intro l c hc; exact Or.inl (by simpa [subMktpGo] using hc)
  | succ fuel ih =>
    intro l c hc
    match l with
    | [] => simp [subMktpGo] at hc
    | a :: rest =>
      rw [subMktpGo] at hc
      cases htry : tryMktp (a :: rest) with
      | some rem =>
        rw [htry] at hc
        rcases List.mem_append.mp hc with h | h
        · exact Or.inr h
        · rcases ih h with h2 | h2
          · obtain ⟨mid, hdec, -⟩ := tryMktp_decomp htry
            refine Or.inl ?_
            rw [hdec]
            exact List.mem_append_right _ h2
          · exact Or.inr h2
      | none =>
        rw [htry] at hc
        rcases List.mem_cons.mp hc with h | h
        · exact Or.inl (h ▸ List.mem_cons_self a rest)
        · rcases ih h with h2 | h2
          · exact Or.inl (List.mem_cons_of_mem a h2)
          · exact Or.inr h2

theorem mem_pyStrip {x : Str} {c : Nat} (hc : c ∈ pyStrip x) : c ∈ x := by
  rw [pyStrip] at hc
  rw [List.mem_reverse] at hc
  have hsuf : (x.dropWhile isSp).reverse.dropWhile isSp <:+ (x.dropWhile isSp).reverse :=
    List.dropWhile_suffix isSp
  have h1 := hsuf.subset hc
  rw [List.mem_reverse] at h1
  exact (List.dropWhile_suffix isSp).subset h1

/-- Every character of the pipeline output comes from the uppercased input or
from the replacement text `AMAZON`. -/
theorem mem_afterOutside {s : Str} {c : Nat} (h : c ∈ afterOutside s) :
    c ∈ afterUpper s ∨ c ∈ S "AMAZON" := by
  have h14 : c ∈ afterPOS s := mem_subEnd h
  have h13 : c ∈ afterPrairie s := mem_subEnd h14
  have h12 : c ∈ afterLeawood s := mem_subEnd h13
  have h11 : c ∈ afterOverland s := mem_subEnd h12
  have h10 : c ∈ afterPAR s := mem_subEnd h11
  have h9 : c ∈ afterFSP s := mem_subPrefix h10
  have h8 : c ∈ afterSP s := mem_subPrefix h9
  have h7 : c ∈ afterTST s := mem_subPrefix h8
  have h6 : c ∈ afterMktp s := mem_subPrefix h7
  rcases mem_subMktpGo h6 with h5 | ham
  · have h4 : c ∈ afterLoc s := mem_subPrefix h5
    have h3 : c ∈ afterHashRef s := mem_subEnd h4
    have h2 : c ∈ afterStore s := mem_subHashGo h3
    exact Or.inl (mem_subEnd h2)
  · exact Or.inr ham

/-! ### Case-folding facts -/

theorem upChar_upChar (c : Nat) : upChar (upChar c) = upChar c := by
  unfold upChar
  split_ifs <;> omega

theorem upChar_lowChar (c : Nat) : upChar (lowChar c) = upChar c := by
  unfold upChar lowChar
  split_ifs <;> omega

theorem upChar_mem_normalize {s : Str} {c : Nat} (h : c ∈ normalize_vendor_base s) :
    upChar c = c := by
  have h1 : c ∈ afterOutside s := mem_pyStrip h
  rcases mem_afterOutside h1 with h2 | h2
  · obtain ⟨a, -, rfl⟩ := List.mem_map.mp h2
    exact upChar_upChar a
  · exact (by decide : ∀ x ∈ S "AMAZON", upChar x = x) c h2

theorem afterUpper_normalize (s : Str) :
    afterUpper (normalize_vendor_base s) = normalize_vendor_base s := by
  unfold afterUpper
  calc (normalize_vendor_base s).map upChar
      = (normalize_vendor_base s).map id :=
        List.map_congr_left (fun a ha => upChar_mem_normalize ha)
    _ = normalize_vendor_base s := List.map_id _

/-! ### Strip idempotence and absence of boundary whitespace -/

theorem dropWhile_head?_not {p : Nat → Bool} {l : Str} {a : Nat}
    (h : (l.dropWhile p).head? = some a) : p a = false := by
  induction l with
  | nil => simp [List.dropWhile] at h
  | cons x xs ih =>
    rw [List.dropWhile_cons] at h
    split at h
    · exact ih h
    · rename_i hx
      have hxa : x = a := by simpa using h
      subst hxa
      simpa using hx

theorem dropWhile_eq_self_of_head? {p : Nat → Bool} {l : Str}
    (h : ∀ a, l.head? = some a → p a = false) : l.dropWhile p = l := by
  cases l with
  | nil => rfl
  | cons x xs =>
    rw [List.dropWhile_cons]
    simp [h x rfl]

theorem pyStrip_getLast?_nonsp {x : Str} {a : Nat}
    (h : (pyStrip x).getLast? = some a) : isSp a = false := by
  have h1 : ((x.dropWhile isSp).reverse.dropWhile isSp).head? = some a := by
    have h2 := List.head?_reverse ((x.dropWhile isSp).reverse.dropWhile isSp).reverse
    rw [List.reverse_reverse] at h2
    rw [h2]
    exact h
  exact dropWhile_head?_not h1

theorem pyStrip_head?_nonsp {x : Str} {a : Nat}
    (h : (pyStrip x).head? = some a) : isSp a = false := by
  set y : Str := x.dropWhile isSp with hy
  set z : Str := y.reverse.dropWhile isSp with hz
  have hza : z.getLast? = some a := by
    have := List.head?_reverse z
    rw [← this]
    exact h
  have hzne : z ≠ [] := by
    intro hnil
    rw [hnil] at hza
    simp at hza
  obtain ⟨u, hu⟩ : z <:+ y.reverse := List.dropWhile_suffix isSp
  have hyr : y.reverse.getLast? = some a := by
    rw [← hu, List.getLast?_append_of_ne_nil u hzne]
    exact hza
  have hyh : y.head? = some a := by
    rw [List.getLast?_reverse] at hyr
    exact hyr
  exact dropWhile_head?_not hyh

theorem pyStrip_idem (x : Str) : pyStrip (pyStrip x) = pyStrip x := by
  have h1 : (pyStrip x).dropWhile isSp = pyStrip x :=
    dropWhile_eq_self_of_head? (fun a ha => pyStrip_head?_nonsp ha)
  have h2 : (pyStrip x).reverse.dropWhile isSp = (pyStrip x).reverse :=
    dropWhile_eq_self_of_head? (fun a ha => by
      rw [List.head?_reverse] at ha
      exact pyStrip_getLast?_nonsp ha)
  have hdef : pyStrip (pyStrip x)
      = (((pyStrip x).dropWhile isSp).reverse.dropWhile isSp).reverse := rfl
  rw [hdef, h1, h2, List.reverse_reverse]

theorem pyStrip_normalize (s : Str) :
    pyStrip (normalize_vendor_base s) = normalize_vendor_base s :=
  pyStrip_idem (afterOutside s)

/-- Applying the canonicalizer to its own output can only shorten it. -/
theorem normalize_iterate_le (s : Str) :
    (normalize_vendor_base (normalize_vendor_base s)).length
      ≤ (normalize_vendor_base s).length := by
  have h2 : stripLen (afterOutside (normalize_vendor_base s))
      ≤ stripLen (afterUpper (normalize_vendor_base s)) :=
    pipeline_stripLen_le (normalize_vendor_base s)
  rw [afterUpper_normalize s] at h2
  have h4 : stripLen (normalize_vendor_base s) = (normalize_vendor_base s).length := by
    rw [stripLen, pyStrip_normalize s]
  calc (normalize_vendor_base (normalize_vendor_base s)).length
      = stripLen (afterOutside (normalize_vendor_base s)) := rfl
    _ ≤ stripLen (normalize_vendor_base s) := h2
    _ = (normalize_vendor_base s).length := h4

/-- A marketplace-pattern match always replaces at least 13 characters by the
6-character literal `AMAZON`. -/
theorem tryMktp_shortens {l rem : Str} (h : tryMktp l = some rem) :
    (S "AMAZON").length + rem.length < l.length := by
  obtain ⟨mid, hdec, hmid⟩ := tryMktp_decomp h
  obtain ⟨x, hx, -⟩ := hmid
  have hmidlen : 1 ≤ mid.length := List.length_pos.mpr (List.ne_nil_of_mem hx)
  have : l.length = (S "AMAZON").length + mid.length + rem.length := by
    rw [hdec]
    simp [Nat.add_assoc]
  simp only [this]
  have h6 : (S "AMAZON").length = 6 := by decide
  omega

/-! ### Case invariance and whitespace-only inputs -/

theorem normalize_eq_of_afterUpper_eq {s₁ s₂ : Str} (h : afterUpper s₁ = afterUpper s₂) :
    normalize_vendor_base s₁ = normalize_vendor_base s₂ := by
  unfold normalize_vendor_base afterOutside afterPOS afterPrairie afterLeawood afterOverland
    afterPAR afterFSP afterSP afterTST afterMktp afterSQ afterLoc afterHashRef afterStore
  rw [h]

theorem isSp_upChar {c : Nat} (h : isSp c = true) : upChar c = c := by
  unfold isSp at h
  unfold upChar
  simp only [decide_eq_true_eq] at h
  split_ifs with h2
  · omega
  · rfl

theorem allSp_afterUpper {s : Str} (h : ∀ c ∈ s, isSp c = true) :
    ∀ c ∈ afterUpper s, isSp c = true := by
  intro c hc
  obtain ⟨a, ha, rfl⟩ := List.mem_map.mp hc
  rw [isSp_upChar (h a ha)]
  exact h a ha

theorem allSp_subMktpGo {fuel : Nat} : ∀ {l : Str}, (∀ c ∈ l, isSp c = true) →
    ∀ c ∈ subMktpGo fuel l, isSp c = true := by
  induction fuel with
  | zero => intro l h c hc; exact h c (by simpa [subMktpGo] using hc)
  | succ fuel ih =>
    intro l h c hc
    match l with
    | [] => simp [subMktpGo] at hc
    | a :: rest =>
      rw [subMktpGo] at hc
      cases htry : tryMktp (a :: rest) with
      | some rem =>
        obtain ⟨mid, hdec, -⟩ := tryMktp_decomp htry
        have h65 : (65 : Nat) ∈ a :: rest := by
          rw [hdec]
          exact List.mem_append_left _ (List.mem_append_left _ (by decide))
        have := h 65 h65
        simp [isSp] at this
      | none =>
        rw [htry] at hc
        rcases List.mem_cons.mp hc with hcc | hcc
        · exact hcc ▸ h a (List.mem_cons_self a rest)
        · exact ih (fun d hd => h d (List.mem_cons_of_mem a hd)) c hcc

theorem pyStrip_of_allSp {x : Str} (h : ∀ c ∈ x, isSp c = true) : pyStrip x = [] := by
  have h1 : x.dropWhile isSp = [] := List.dropWhile_eq_nil_iff.mpr h
  rw [pyStrip, h1]
  rfl

/-- On whitespace-only input every rule preserves whitespace-onlyness, so the
final strip empties the string. -/
theorem normalize_allSp {s : Str} (h : ∀ c ∈ s, isSp c = true) :
    normalize_vendor_base s = [] := by
  have h0 : ∀ c ∈ afterUpper s, isSp c = true := allSp_afterUpper h
  have h1 : ∀ c ∈ afterStore s, isSp c = true := fun c hc => h0 c (mem_subEnd hc)
  have h2 : ∀ c ∈ afterHashRef s, isSp c = true := fun c hc => h1 c (mem_subHashGo hc)
  have h3 : ∀ c ∈ afterLoc s, isSp c = true := fun c hc => h2 c (mem_subEnd hc)
  have h4 : ∀ c ∈ afterSQ s, isSp c = true := fun c hc => h3 c (mem_subPrefix hc)
  have h5 : ∀ c ∈ afterMktp s, isSp c = true := allSp_subMktpGo h4
  have h6 : ∀ c ∈ afterTST s, isSp c = true := fun c hc => h5 c (mem_subPrefix hc)
  have h7 : ∀ c ∈ afterSP s, isSp c = true := fun c hc => h6 c (mem_subPrefix hc)
  have h8 : ∀ c ∈ afterFSP s, isSp c = true := fun c hc => h7 c (mem_subPrefix hc)
  have h9 : ∀ c ∈ afterPAR s, isSp c = true := fun c hc => h8 c (mem_subPrefix hc)
  have h10 : ∀ c ∈ afterOverland s, isSp c = true := fun c hc => h9 c (mem_subEnd hc)
  have h11 : ∀ c ∈ afterLeawood s, isSp c = true := fun c hc => h10 c (mem_subEnd hc)
  have h12 : ∀ c ∈ afterPrairie s, isSp c = true := fun c hc => h11 c (mem_subEnd hc)
  have h13 : ∀ c ∈ afterPOS s, isSp c = true := fun c hc => h12 c (mem_subEnd hc)
  have h14 : ∀ c ∈ afterOutside s, isSp c = true := fun c hc => h13 c (mem_subEnd hc)
  exact pyStrip_of_allSp h14

/-! ### When a prefix rule fires -/

theorem subPrefix_ne_iff {pre s : Str} (hpre : pre ≠ []) :
    subPrefix pre s ≠ s ↔ pre.isPrefixOf s = true := by
  rw [subPrefix]
  split
  · rename_i hp
    simp only [hp, iff_true]
    intro heq
    have hlen := congrArg List.length heq
    obtain ⟨t, ht⟩ := List.isPrefixOf_iff_prefix.mp hp
    have hle : pre.length ≤ s.length := by
      rw [← ht]
      simp
    have hplen : 0 < pre.length := List.length_pos.mpr hpre
    rw [List.length_drop] at hlen
    omega
  · rename_i hp
    simp [hp]

/-! ### The trailing store-code rule with no separator -/

theorem isSp_of_isDig {c : Nat} (h : isDig c = true) : isSp c = false := by
  unfold isDig at h
  unfold isSp
  simp only [decide_eq_true_eq] at h
  simp only [decide_eq_false_iff_not]
  omega

theorem mem_dropWhile_of_nonsp {l : Str} {c : Nat} (hc : c ∈ l) (hs : isSp c = false) :
    c ∈ l.dropWhile isSp := by
  induction l with
  | nil => simp at hc
  | cons x xs ih =>
    rw [List.dropWhile_cons]
    split
    · rename_i hx
      rcases List.mem_cons.mp hc with h | h
      · rw [h] at hs
        rw [hs] at hx
        simp at hx
      · exact ih h
    · exact hc

theorem chkStore_false_of_bad {l : Str} {c : Nat} (hc : c ∈ l) (hd : isDig c = false)
    (hs : isSp c = false) (h35 : c ≠ 35) : chkStore l = false := by
  have hcr : c ∈ l.dropWhile isSp := mem_dropWhile_of_nonsp hc hs
  unfold chkStore
  dsimp only
  split
  · rename_i t heq
    rw [heq] at hcr
    have hct : c ∈ t := by
      rcases List.mem_cons.mp hcr with h | h
      · exact absurd h h35
      · exact h
    have hall : t.all isDig = false := by
      rw [List.all_eq_false]
      exact ⟨c, hct, by simp [hd]⟩
    simp [hall]
  · have hall : (l.dropWhile isSp).all isDig = false := by
      rw [List.all_eq_false]
      exact ⟨c, hcr, by simp [hd]⟩
    simp [hall]

theorem chkStore_true_digits {ds : Str} (hds : ∀ d ∈ ds, isDig d = true)
    (hlen4 : 4 ≤ ds.length) (hlen8 : ds.length ≤ 8) : chkStore ds = true := by
  cases ds with
  | nil => simp at hlen4
  | cons d t =>
    have hdd : isDig d = true := hds d (List.mem_cons_self d t)
    have hdrop : (d :: t).dropWhile isSp = d :: t :=
      dropWhile_eq_self_of_head? (fun a ha => by
        have had : d = a := by simpa using ha
        exact had ▸ isSp_of_isDig hdd)
    unfold chkStore
    dsimp only
    rw [hdrop]
    split
    · rename_i t' heq
      injection heq with h1 h2
      rw [h1] at hdd
      simp [isDig] at hdd
    · simp only [Bool.and_eq_true, decide_eq_true_eq]
      exact ⟨List.all_eq_true.mpr hds, hlen4, hlen8⟩

theorem subEndCore_store (s : Str) {c : Nat} {ds : Str}
    (hds : ∀ d ∈ ds, isDig d = true) (hlen4 : 4 ≤ ds.length) (hlen8 : ds.length ≤ 8)
    (hd : isDig c = false) (hs : isSp c = false) (h35 : c ≠ 35) :
    subEndCore chkStore (s ++ c :: ds) = s ++ [c] := by
  induction s with
  | nil =>
    rw [List.nil_append, subEndCore]
    have hfalse : chkStore (c :: ds) = false :=
      chkStore_false_of_bad (List.mem_cons_self c ds) hd hs h35
    rw [hfalse]
    simp only [Bool.false_eq_true, if_false, List.nil_append]
    have htail : subEndCore chkStore ds = [] := by
      rw [subEndCore.eq_def, chkStore_true_digits hds hlen4 hlen8]
      simp
    rw [htail]
  | cons a s' ih =>
    rw [List.cons_append, subEndCore]
    have hfalse : chkStore (a :: (s' ++ c :: ds)) = false :=
      chkStore_false_of_bad (List.mem_cons_of_mem a
        (List.mem_append_right s' (List.mem_cons_self c ds))) hd hs h35
    rw [hfalse]
    simp only [Bool.false_eq_true, if_false]
    rw [ih, List.cons_append]

theorem subEnd_store (s : Str) {c : Nat} {ds : Str}
    (hds : ∀ d ∈ ds, isDig d = true) (hlen4 : 4 ≤ ds.length) (hlen8 : ds.length ≤ 8)
    (hd : isDig c = false) (hs : isSp c = false) (h35 : c ≠ 35) :
    subEnd chkStore (s ++ c :: ds) = s ++ [c] := by
  have hne : ds ≠ [] := by
    intro h
    rw [h] at hlen4
    simp at hlen4
  have hlast : (s ++ c :: ds).getLast? = ds.getLast? := by
    rw [List.append_cons, List.getLast?_append_of_ne_nil _ hne]
  have hlastds : ds.getLast? = some (ds.getLast hne) := List.getLast?_eq_getLast ds hne
  have hdig : isDig (ds.getLast hne) = true := hds _ (List.getLast_mem hne)
  have hne10 : ¬ (s ++ c :: ds).getLast? = some 10 := by
    rw [hlast, hlastds]
    intro h
    have h10 : ds.getLast hne = 10 := by simpa using h
    rw [h10] at hdig
    simp [isDig] at hdig
  rw [subEnd, if_neg hne10]
  exact subEndCore_store s hds hlen4 hlen8 hd hs h35

/-! ### The frequency table and missing descriptions -/

theorem normalize_nil : normalize_vendor_base ([] : Str) = [] := by decide

theorem merchant_counts_filter_hasDesc (ts : List (Option Str)) (key : Str) (hk : key ≠ []) :
    merchant_counts ts key = merchant_counts (ts.filter hasDesc) key := by
  induction ts with
  | nil => rfl
  | cons t ts ih =>
    unfold merchant_counts at ih ⊢
    rw [List.filter_cons]
    cases htd : hasDesc t
    · have hdesc : descOrEmpty t = [] := by
        unfold hasDesc at htd
        cases t with
        | none => rfl
        | some d =>
          simp only [Bool.not_eq_false'] at htd
          simp [descOrEmpty, List.isEmpty_iff.mp htd]
      have hnz : (normalize_vendor_base (descOrEmpty t) == key) = false := by
        rw [hdesc, normalize_nil]
        simpa using (Ne.symm hk)
      simp only [htd, Bool.false_eq_true, if_false]
      rw [List.map_cons, List.count_cons]
      simp only [hnz, Bool.false_eq_true, if_false, Nat.add_zero]
      exact ih
    · simp only [htd, if_true]
      rw [List.map_cons, List.count_cons, List.map_cons, List.count_cons, ih]

/-! ### Sorting and grouping machinery -/

theorem lexLe_total (a b : Str) : lexLe a b = true ∨ lexLe b a = true := by
  induction a generalizing b with
  | nil => exact Or.inl rfl
  | cons x xs ih =>
    cases b with
    | nil => exact Or.inr rfl
    | cons y ys =>
      rw [lexLe, lexLe]
      rcases Nat.lt_trichotomy x y with h | h | h
      · left
        simp [h]
      · subst h
        simpa [Nat.lt_irrefl] using ih ys
      · right
        simp [h]

theorem lexLe_trans {a b c : Str} (hab : lexLe a b = true) (hbc : lexLe b c = true) :
    lexLe a c = true := by
  induction a generalizing b c with
  | nil => rfl
  | cons x xs ih =>
    cases b with
    | nil => simp [lexLe] at hab
    | cons y ys =>
      cases c with
      | nil => simp [lexLe] at hbc
      | cons z zs =>
        rw [lexLe] at hab hbc ⊢
        split at hab
        · rename_i hxy
          split
          · rfl
          · rename_i hxz
            split
            · rename_i hzx
              exfalso
              split at hbc
              · omega
              · split at hbc
                · simp at hbc
                · omega
            · rename_i hzx
              exfalso
              split at hbc
              · omega
              · split at hbc
                · simp at hbc
                · omega
        · rename_i hxy
          split at hab
          · simp at hab
          · rename_i hyx
            have hxy' : x = y := by omega
            subst hxy'
            split at hbc
            · rename_i hxz
              rw [if_pos hxz]
            · rename_i hxz
              split at hbc
              · simp at hbc
              · rename_i hzx
                rw [if_neg hxz, if_neg hzx]
                exact ih hab hbc

theorem mem_insSorted {x a : Str} : ∀ {l : List Str}, a ∈ insSorted x l ↔ a = x ∨ a ∈ l := by
  intro l
  induction l with
  | nil => simp [insSorted]
  | cons y ys ih =>
    rw [insSorted]
    split
    · simp only [List.mem_cons, ih]
      tauto
    · simp [List.mem_cons]

theorem pairwise_insSorted {x : Str} {l : List Str}
    (h : l.Pairwise (fun p q => lexLe p q = true)) :
    (insSorted x l).Pairwise (fun p q => lexLe p q = true) := by
  induction l with
  | nil => simp [insSorted]
  | cons y ys ih =>
    rw [List.pairwise_cons] at h
    rw [insSorted]
    split
    · rename_i hyx
      rw [List.pairwise_cons]
      refine ⟨?_, ih h.2⟩
      intro z hz
      rcases mem_insSorted.mp hz with rfl | hz2
      · exact hyx
      · exact h.1 z hz2
    · rename_i hyx
      have hxy : lexLe x y = true := by
        rcases lexLe_total x y with h2 | h2
        · exact h2
        · exact absurd h2 hyx
      rw [List.pairwise_cons]
      refine ⟨?_, List.pairwise_cons.mpr h⟩
      intro z hz
      rcases List.mem_cons.mp hz with rfl | hz2
      · exact hxy
      · exact lexLe_trans hxy (h.1 z hz2)

theorem mem_foldl_insSorted (l : List Str) : ∀ (acc : List Str) (a : Str),
    a ∈ l.foldl (fun acc x => insSorted x acc) acc ↔ a ∈ acc ∨ a ∈ l := by
  induction l with
  | nil => simp
  | cons y ys ih =>
    intro acc a
    rw [List.foldl_cons, ih, mem_insSorted]
    simp only [List.mem_cons]
    tauto

theorem pairwise_foldl_insSorted (l : List Str) : ∀ (acc : List Str),
    acc.Pairwise (fun p q => lexLe p q = true) →
    (l.foldl (fun acc x => insSorted x acc) acc).Pairwise (fun p q => lexLe p q = true) := by
  induction l with
  | nil => intro acc h; exact h
  | cons y ys ih =>
    intro acc h
    exact ih _ (pairwise_insSorted h)

theorem mem_pySorted {a : Str} {l : List Str} : a ∈ pySorted l ↔ a ∈ l := by
  rw [pySorted, mem_foldl_insSorted]
  simp

theorem pairwise_pySorted (l : List Str) :
    (pySorted l).Pairwise (fun p q => lexLe p q = true) :=
  pairwise_foldl_insSorted l [] (List.Pairwise.nil)

theorem mem_insByLen {x a : Str × List Str} : ∀ {l : List (Str × List Str)},
    a ∈ insByLen x l ↔ a = x ∨ a ∈ l := by
  intro l
  induction l with
  | nil => simp [insByLen]
  | cons y ys ih =>
    rw [insByLen]
    split
    · simp only [List.mem_cons, ih]
      tauto
    · simp [List.mem_cons]

theorem pairwise_insByLen {x : Str × List Str} {l : List (Str × List Str)}
    (h : l.Pairwise (fun p q => q.2.length ≤ p.2.length)) :
    (insByLen x l).Pairwise (fun p q => q.2.length ≤ p.2.length) := by
  induction l with
  | nil => simp [insByLen]
  | cons y ys ih =>
    rw [List.pairwise_cons] at h
    rw [insByLen]
    split
    · rename_i hxy
      rw [List.pairwise_cons]
      refine ⟨?_, ih h.2⟩
      intro z hz
      rcases mem_insByLen.mp hz with rfl | hz2
      · exact hxy
      · exact h.1 z hz2
    · rename_i hxy
      rw [List.pairwise_cons]
      refine ⟨?_, List.pairwise_cons.mpr h⟩
      intro z hz
      rcases List.mem_cons.mp hz with rfl | hz2
      · omega
      · have := h.1 z hz2
        omega

theorem mem_foldl_insByLen (l : List (Str × List Str)) : ∀ (acc : List (Str × List Str))
    (a : Str × List Str),
    a ∈ l.foldl (fun acc x => insByLen x acc) acc ↔ a ∈ acc ∨ a ∈ l := by
  induction l with
  | nil => simp
  | cons y ys ih =>
    intro acc a
    rw [List.foldl_cons, ih, mem_insByLen]
    simp only [List.mem_cons]
    tauto

theorem mem_sortByLenDesc {a : Str × List Str} {l : List (Str × List Str)} :
    a ∈ sortByLenDesc l ↔ a ∈ l := by
  rw [sortByLenDesc, mem_foldl_insByLen]
  simp

theorem pairwise_sortByLenDesc (l : List (Str × List Str)) :
    (sortByLenDesc l).Pairwise (fun p q => q.2.length ≤ p.2.length) := by
  rw [sortByLenDesc]
  have hgen : ∀ (m acc : List (Str × List Str)),
      acc.Pairwise (fun p q => q.2.length ≤ p.2.length) →
      (m.foldl (fun acc x => insByLen x acc) acc).Pairwise
        (fun p q => q.2.length ≤ p.2.length) := by
    intro m
    induction m with
    | nil => intro acc h; exact h
    | cons y ys ih => intro acc h; exact ih _ (pairwise_insByLen h)
  exact hgen l [] List.Pairwise.nil

theorem mem_of_mem_dedupFirstGo : ∀ {fuel : Nat} {l : List Str} {a : Str},
    a ∈ dedupFirstGo fuel l → a ∈ l := by
  intro fuel
  induction fuel with
  | zero => intro l a h; simp [dedupFirstGo] at h
  | succ fuel ih =>
    intro l a h
    match l with
    | [] => simp [dedupFirstGo] at h
    | x :: xs =>
      rw [dedupFirstGo] at h
      rcases List.mem_cons.mp h with rfl | h2
      · exact List.mem_cons_self a xs
      · exact List.mem_cons_of_mem x (List.mem_of_mem_filter (ih h2))

theorem mem_dedupFirstGo_of_mem : ∀ {fuel : Nat} {l : List Str} {a : Str},
    l.length ≤ fuel → a ∈ l → a ∈ dedupFirstGo fuel l := by
  intro fuel
  induction fuel with
  | zero =>
    intro l a hlen h
    rw [List.length_eq_zero.mp (Nat.le_zero.mp hlen)] at h
    simp at h
  | succ fuel ih =>
    intro l a hlen h
    match l with
    | [] => simp at h
    | x :: xs =>
      rw [dedupFirstGo]
      by_cases hax : a = x
      · exact hax ▸ List.mem_cons_self x _
      · rcases List.mem_cons.mp h with rfl | h2
        · exact absurd rfl hax
        · refine List.mem_cons_of_mem x (ih ?_ ?_)
          · calc (xs.filter (fun y => decide (y ≠ x))).length ≤ xs.length :=
                List.length_filter_le _ xs
              _ ≤ fuel := by simpa using hlen
          · exact List.mem_filter.mpr ⟨h2, by simpa using hax⟩

theorem mem_dedupFirst {l : List Str} {a : Str} : a ∈ dedupFirst l ↔ a ∈ l :=
  ⟨mem_of_mem_dedupFirstGo, mem_dedupFirstGo_of_mem (Nat.le_refl _)⟩

/-- Characterization of membership in `find_groups`. -/
theorem mem_find_groups {ds : List Str} {kv : Str × List Str} :
    kv ∈ find_groups ds ↔
      1 < (extract_vendor_patterns ds kv.1).length ∧
        kv.2 = pySorted (extract_vendor_patterns ds kv.1) := by
  rw [find_groups, mem_sortByLenDesc, List.mem_filterMap]
  constructor
  · rintro ⟨k, hk, hfk⟩
    dsimp only at hfk
    split at hfk
    · rename_i hlen
      have hkv := Option.some_inj.mp hfk
      rw [← hkv]
      exact ⟨hlen, rfl⟩
    · simp at hfk
  · rintro ⟨hlen, hsort⟩
    refine ⟨kv.1, ?_, ?_⟩
    · rw [mem_dedupFirst]
      have hne : extract_vendor_patterns ds kv.1 ≠ [] := by
        intro h
        rw [h] at hlen
        simp at hlen
      obtain ⟨d, hd⟩ := List.exists_mem_of_ne_nil _ hne
      have hdf := List.mem_filter.mp hd
      rw [List.mem_map]
      exact ⟨d, hdf.1, by simpa using hdf.2⟩
    · dsimp only
      rw [if_pos hlen, ← hsort]

/-! ### Claim theorems -/

/-- Claim C1, counterexample: a transaction with a missing description field
does contribute to the frequency table — `t.get('Description', '')` defaults to
the empty string, which normalizes to the empty key, and that key's counter is
incremented; it is not skipped. -/
theorem merchant_counts_missing_desc_counted :
    merchant_counts [none] [] = 1 ∧ merchant_counts (List.filter hasDesc [none]) [] = 0 := by
  decide

/-- Claim C1, amended: transactions with a missing or empty description field
contribute only to the counter of the empty canonical key; every counter of a
nonempty key receives exactly the contributions of the transactions with a
present, nonempty description. -/
theorem merchant_counts_missing_desc_only_empty_key (ts : List (Option Str)) (key : Str)
    (hk : key ≠ []) : merchant_counts ts key = merchant_counts (ts.filter hasDesc) key :=
  merchant_counts_filter_hasDesc ts key hk

/-- Witness for the amended claim C1 at a concrete transaction list and key. -/
theorem merchant_counts_missing_desc_only_empty_key_witness :
    (S "A" ≠ []) ∧
      merchant_counts [none, some (S "A")] (S "A")
        = merchant_counts (List.filter hasDesc [none, some (S "A")]) (S "A") :=
  ⟨by decide, merchant_counts_missing_desc_only_empty_key [none, some (S "A")] (S "A") (by decide)⟩

/-- Claim C2, counterexample: the canonicalizer is not idempotent.  On
`"A 1234 5678"` the trailing-store-number rule strips `" 5678"`, producing
`"A 1234"`; a second application strips `" 1234"` as well, producing `"A"`. -/
theorem normalize_not_idempotent_counterexample :
    normalize_vendor_base (normalize_vendor_base (S "A 1234 5678"))
      ≠ normalize_vendor_base (S "A 1234 5678") := by
  decide

/-- Claim C2, amended: re-applying the canonicalizer to its own output can
strip further text, but it never lengthens the string: for every `s`,
`len(canonicalize(canonicalize(s))) ≤ len(canonicalize(s))`. -/
theorem normalize_reapply_length_le (s : Str) :
    (normalize_vendor_base (normalize_vendor_base s)).length
      ≤ (normalize_vendor_base s).length :=
  normalize_iterate_le s

/-- Claim C3, counterexample: all five payment-aggregator prefix rules fire in
one call on `"SQ *TST*SP FSP*PAR*X"` — stripping one prefix exposes the next. -/
theorem prefix_rules_fire_count_counterexample :
    prefixFireCount (S "SQ *TST*SP FSP*PAR*X") = 5 ∧
      1 < prefixFireCount (S "SQ *TST*SP FSP*PAR*X") := by
  decide

/-- Claim C3, amended: each prefix rule fires exactly when its literal pattern
matches the start of the current string at that rule's point in the pipeline;
since stripping one prefix can expose another, several prefix rules may fire
during a single call. -/
theorem prefix_rule_fires_iff_matches_start (s : Str) :
    (afterSQ s ≠ afterLoc s ↔ (S "SQ *").isPrefixOf (afterLoc s) = true) ∧
      (afterTST s ≠ afterMktp s ↔ (S "TST*").isPrefixOf (afterMktp s) = true) ∧
      (afterSP s ≠ afterTST s ↔ (S "SP ").isPrefixOf (afterTST s) = true) ∧
      (afterFSP s ≠ afterSP s ↔ (S "FSP*").isPrefixOf (afterSP s) = true) ∧
      (afterPAR s ≠ afterFSP s ↔ (S "PAR*").isPrefixOf (afterFSP s) = true) :=
  ⟨subPrefix_ne_iff (by decide), subPrefix_ne_iff (by decide), subPrefix_ne_iff (by decide),
    subPrefix_ne_iff (by decide), subPrefix_ne_iff (by decide)⟩

/-- Witness for the amended claim C3 at a concrete input: the SQ rule fires on
`"SQ *X"` because its pattern matches the start. -/
theorem prefix_rule_fires_iff_matches_start_witness :
    afterSQ (S "SQ *X") ≠ afterLoc (S "SQ *X") :=
  (prefix_rule_fires_iff_matches_start (S "SQ *X")).1.mpr (by decide)

/-- Claim C4: `"TST* JOES DINER #42"` and `"TST*JOES DINER #77"` both
canonicalize to `"JOES DINER"`, and with exactly these two distinct
descriptions as input the grouper puts both — and nothing else — in the bucket
of key `"JOES DINER"`, an ambiguous group with 2 variants. -/
theorem tst_joes_diner_grouped :
    normalize_vendor_base (S "TST* JOES DINER #42") = S "JOES DINER" ∧
      normalize_vendor_base (S "TST*JOES DINER #77") = S "JOES DINER" ∧
      extract_vendor_patterns [S "TST* JOES DINER #42", S "TST*JOES DINER #77"]
          (S "JOES DINER")
        = [S "TST* JOES DINER #42", S "TST*JOES DINER #77"] ∧
      find_groups [S "TST* JOES DINER #42", S "TST*JOES DINER #77"]
        = [(S "JOES DINER", [S "TST* JOES DINER #42", S "TST*JOES DINER #77"])] := by
  decide

/-- Claim C5: the ambiguous-group list contains exactly the buckets with more
than one raw variant (each stored with its sorted variant list), and it is
sorted by descending variant count. -/
theorem find_groups_exactly_ambiguous_sorted (ds : List Str) :
    (∀ kv : Str × List Str, kv ∈ find_groups ds ↔
        1 < (extract_vendor_patterns ds kv.1).length ∧
          kv.2 = pySorted (extract_vendor_patterns ds kv.1)) ∧
      (find_groups ds).Pairwise (fun p q => q.2.length ≤ p.2.length) :=
  ⟨fun _ => mem_find_groups, pairwise_sortByLenDesc _⟩

/-- Witness for claim C5 at a concrete input: with distinct descriptions
`["TST*A", "A"]` the bucket of key `"A"` has the two variants and is a group. -/
theorem find_groups_exactly_ambiguous_sorted_witness :
    (S "A", [S "A", S "TST*A"]) ∈ find_groups [S "TST*A", S "A"] :=
  ((find_groups_exactly_ambiguous_sorted [S "TST*A", S "A"]).1
    (S "A", [S "A", S "TST*A"])).mpr ⟨by decide, by decide⟩

/-- Claim C6: canonicalization never lengthens its input beyond case folding —
`len(canonicalize(s)) ≤ len(s.upper().strip())` — and, in particular, every
marketplace-rewrite match replaces a span strictly longer than the 6-character
replacement literal `AMAZON`. -/
theorem normalize_monotone_shortening :
    (∀ s : Str, (normalize_vendor_base s).length ≤ (pyStrip (afterUpper s)).length) ∧
      (∀ (l rem : Str), tryMktp l = some rem →
        (S "AMAZON").length + rem.length < l.length) :=
  ⟨fun s => pipeline_stripLen_le s, fun _ _ h => tryMktp_shortens h⟩

/-- Witness for claim C6: the length bound at a concrete input, and a concrete
marketplace match that shrinks the string. -/
theorem normalize_monotone_shortening_witness :
    (normalize_vendor_base (S " tst*Cafe #99 ")).length
        ≤ (pyStrip (afterUpper (S " tst*Cafe #99 "))).length ∧
      (S "AMAZON").length + ([] : Str).length < (S "AMAZON MKTP*X1").length :=
  ⟨(normalize_monotone_shortening).1 (S " tst*Cafe #99 "),
    (normalize_monotone_shortening).2 (S "AMAZON MKTP*X1") [] (by decide)⟩

/-- Claim C7: the canonicalizer is case invariant — uppercasing or lowercasing
the input first does not change the result. -/
theorem normalize_case_invariant (s : Str) :
    normalize_vendor_base (s.map upChar) = normalize_vendor_base s ∧
      normalize_vendor_base (s.map lowChar) = normalize_vendor_base s := by
  constructor
  · apply normalize_eq_of_afterUpper_eq
    show (s.map upChar).map upChar = s.map upChar
    rw [List.map_map]
    exact List.map_congr_left (fun a _ => upChar_upChar a)
  · apply normalize_eq_of_afterUpper_eq
    show (s.map lowChar).map upChar = s.map upChar
    rw [List.map_map]
    exact List.map_congr_left (fun a _ => upChar_lowChar a)

/-- Claim C8: the canonicalizer is a total function on strings (it is a Lean
function, so it never raises); whitespace-only input normalizes to the empty
string, and the result never carries leading or trailing whitespace. -/
theorem normalize_total_empty_trimmed (s : Str) :
    ((∀ c ∈ s, isSp c = true) → normalize_vendor_base s = []) ∧
      (∀ c, (normalize_vendor_base s).head? = some c → isSp c = false) ∧
      (∀ c, (normalize_vendor_base s).getLast? = some c → isSp c = false) :=
  ⟨fun h => normalize_allSp h,
    fun _ h => pyStrip_head?_nonsp h,
    fun _ h => pyStrip_getLast?_nonsp h⟩

/-- Witness for claim C8: a whitespace-only input normalizes to the empty
string, and on `" X "` the head of the result is the non-whitespace `X`. -/
theorem normalize_total_empty_trimmed_witness :
    normalize_vendor_base (S " \t ") = [] ∧ isSp 88 = false :=
  ⟨(normalize_total_empty_trimmed (S " \t ")).1 (by decide),
    (normalize_total_empty_trimmed (S " X ")).2.1 88 (by decide)⟩

/-- Claim C9: in every group produced by `find_groups` the variant list is
sorted in ascending lexicographic (code point) order, whatever the input
order was. -/
theorem find_groups_variants_sorted {ds : List Str} {kv : Str × List Str}
    (h : kv ∈ find_groups ds) : kv.2.Pairwise (fun p q => lexLe p q = true) := by
  rw [(mem_find_groups.mp h).2]
  exact pairwise_pySorted _

/-- Witness for claim C9: the group of key `"A"` built from the input order
`["TST*A", "A"]` stores its variants in ascending order. -/
theorem find_groups_variants_sorted_witness :
    ([S "A", S "TST*A"] : List Str).Pairwise (fun p q => lexLe p q = true) :=
  @find_groups_variants_sorted [S "TST*A", S "A"] (S "A", [S "A", S "TST*A"]) (by decide)

/-- Claim C10: the trailing store-code rule fires with no separator at all —
for any string ending in a non-digit, non-whitespace character other than `#`
followed by a run of 4 to 8 digits, the rule deletes exactly that digit run —
and in particular `canonicalize("BAR1234") = "BAR"`. -/
theorem trailing_digits_stripped_no_separator :
    (∀ (s : Str) (c : Nat) (ds : Str), (∀ d ∈ ds, isDig d = true) →
        4 ≤ ds.length → ds.length ≤ 8 → isDig c = false → isSp c = false → c ≠ 35 →
        subEnd chkStore (s ++ c :: ds) = s ++ [c]) ∧
      normalize_vendor_base (S "BAR1234") = S "BAR" :=
  ⟨fun s _ _ h1 h2 h3 h4 h5 h6 => subEnd_store s h1 h2 h3 h4 h5 h6, by decide⟩

/-- Witness for claim C10: the store-code rule on `"BAR1234"` (as `"BA" ++ "R"
++ "1234"`) deletes exactly the four trailing digits. -/
theorem trailing_digits_stripped_no_separator_witness :
    subEnd chkStore (S "BA" ++ 82 :: S "1234") = S "BA" ++ [82] :=
  (trailing_digits_stripped_no_separator).1 (S "BA") 82 (S "1234")
    (by decide) (by decide) (by decide) (by decide) (by decide) (by decide)

end VendorAnalysis
